import Mathlib

/-
Verification development for the Buffett/Lynch 2.0 backtesting repository.

Shallow embedding conventions:
* Python floats are modelled as rationals (ℚ); the arithmetic the core
  performs (sums, products, divisions, max/min, comparisons) is exact on the
  inputs we reason about.  The one real-exponentiation site (`_cagr`) is
  modelled over ℝ with `Real.rpow`.
* Python dicts are association lists (`List (key × value)`); `alist_get`
  returns the first binding, `alist_set` overwrites in place or appends, and
  `alist_del` removes the binding, mirroring dict get/set/del semantics.
* `metrics.get(key)` returning `None` for an absent key is `Option ℚ`.
* Fiscal periods are calendar years; the code stores them as "YYYY" strings
  and compares them via `int(...)`, so they are modelled directly as `Nat`.
* Calendar dates are `SimDate` records (year, month, day); the code sorts
  ISO "YYYY-MM-DD" strings lexicographically, which for well-formed dates
  coincides with the numeric order of `SimDate.serial`.
-/

/-- Association-list lookup modelling Python `dict.get`: first binding wins. -/
def alist_get {κ β : Type} [DecidableEq κ] : List (κ × β) → κ → Option β
  | [], _ => none
  | (k, v) :: rest, key => if k = key then some v else alist_get rest key

/-- Association-list update modelling Python `dict[key] = v`: overwrite the
existing binding in place, otherwise append. -/
def alist_set {κ β : Type} [DecidableEq κ] : List (κ × β) → κ → β → List (κ × β)
  | [], key, v => [(key, v)]
  | (k, w) :: rest, key, v =>
    if k = key then (key, v) :: rest else (k, w) :: alist_set rest key v

/-- Association-list removal modelling Python `del dict[key]`. -/
def alist_del {κ β : Type} [DecidableEq κ] : List (κ × β) → κ → List (κ × β)
  | [], _ => []
  | (k, w) :: rest, key => if k = key then rest else (k, w) :: alist_del rest key

theorem alist_get_set {κ β : Type} [DecidableEq κ] (m : List (κ × β)) (k : κ) (v : β) (q : κ) :
    alist_get (alist_set m k v) q = if k = q then some v else alist_get m q := by
  induction m with
  | nil => simp [alist_set, alist_get]
  | cons p rest ih =>
    obtain ⟨pk, pv⟩ := p
    by_cases hpk : pk = k
    · subst hpk
      by_cases hq : pk = q <;> simp [alist_set, alist_get, hq]
    · by_cases hq : pk = q
      · subst hq
        have hk : ¬ k = pk := fun h => hpk h.symm
        simp [alist_set, alist_get, hpk, hk]
      · simp [alist_set, alist_get, hpk, hq, ih]

/-- Metrics mapping of a fundamental snapshot (`Dict[str, float]` in models.py). -/
abbrev Metrics := List (String × ℚ)

/-- Calendar date, the embedding of an ISO "YYYY-MM-DD" string. -/
structure SimDate where
  y : Nat
  m : Nat
  d : Nat
deriving DecidableEq

/-- Numeric key whose order coincides with lexicographic order of the
zero-padded ISO string representation. -/
def SimDate.serial (dt : SimDate) : Nat := dt.y * 10000 + dt.m * 100 + dt.d

/-- Day count of a Gregorian date (days since 0000-03-01, shifted-era form),
the embedding of `datetime.fromisoformat(...)` subtraction: for valid dates
`(datetime(b) - datetime(a)).days = day_number b - day_number a`. -/
def day_number (dt : SimDate) : Nat :=
  let yAdj := if dt.m ≤ 2 then dt.y - 1 else dt.y
  let mAdj := if dt.m ≤ 2 then dt.m + 9 else dt.m - 3
  let era := yAdj / 400
  let yoe := yAdj % 400
  let doy := (153 * mAdj + 2) / 5 + dt.d - 1
  let doe := yoe * 365 + yoe / 4 - yoe / 100 + doy
  era * 146097 + doe

/-- PriceBar from models.py. -/
structure PriceBar where
  date : SimDate
  close : ℚ
deriving DecidableEq

/-- FundamentalSnapshot from models.py. -/
structure FundamentalSnapshot where
  period : Nat
  market_cap : ℚ
  sector : String
  metrics : Metrics
deriving DecidableEq

/-- ScoredCompany exactly as declared in models.py.  Note: the dataclass
declares NO `moat` field — its fields are symbol, quality, value, growth,
risk, total, sector, market_cap, period. -/
structure ScoredCompany where
  symbol : String
  quality : ℚ
  value : ℚ
  growth : ℚ
  risk : ℚ
  total : ℚ
  sector : String
  market_cap : ℚ
  period : Nat
deriving DecidableEq

/-- Position from models.py; the `entry_date: str = ""` sentinel is modelled
as `Option SimDate` with `none` for the empty string. -/
structure Position where
  symbol : String
  quantity : ℚ
  currency : String
  weight : ℚ
  cost_basis : ℚ
  entry_date : Option SimDate
deriving DecidableEq

/-- Order from models.py. -/
structure Order where
  symbol : String
  action : String
  quantity : ℚ
  currency : String
  reason : String
  price : Option ℚ
deriving DecidableEq

/-- MEDIAN_PERCENTILE constant from fundamental_scoring.py: `0.5`. -/
def MEDIAN_PERCENTILE : ℚ := 1/2

/-- `_metric_with_median` from fundamental_scoring.py: first available metric
value among the keys, else the median fallback (default MEDIAN_PERCENTILE). -/
def metric_with_median (metrics : Metrics) : List String → ℚ
  | [] => MEDIAN_PERCENTILE
  | k :: rest =>
    match alist_get metrics k with
    | some v => v
    | none => metric_with_median metrics rest

/-- `growth_score` from fundamental_scoring.py. -/
def growth_score (snapshot : FundamentalSnapshot) : ℚ :=
  let growth_pct := (alist_get snapshot.metrics "growth").getD 0
  let volatility_penalty := (alist_get snapshot.metrics "revenue_volatility_penalty").getD 0
  max 0 (growth_pct - volatility_penalty)

/-- `quality_score` from fundamental_scoring.py. -/
def quality_score (snapshot : FundamentalSnapshot) : ℚ :=
  let roe_pct := (alist_get snapshot.metrics "roe").getD 0
  let roic_trend_pct := (alist_get snapshot.metrics "roic_trend_pct").getD 0
  9/10 * roe_pct + 1/10 * roic_trend_pct

/-- `moat_score` from fundamental_scoring.py. -/
def moat_score (snapshot : FundamentalSnapshot) : ℚ :=
  let gross_margin_pct :=
    metric_with_median snapshot.metrics ["gross_margin_percentile", "gross_margin_pct"]
  let rd_sales_pct :=
    metric_with_median snapshot.metrics ["r_and_d_to_sales_percentile", "rd_sales_pct"]
  let roic_trend_pct :=
    metric_with_median snapshot.metrics ["roic_trend_percentile", "roic_trend_pct"]
  4/10 * gross_margin_pct + 3/10 * rd_sales_pct + 3/10 * roic_trend_pct

/-- ScoringRules from fundamental_scoring.py: five pluggable sub-score
functions. -/
structure ScoringRules where
  quality : FundamentalSnapshot → ℚ
  value : FundamentalSnapshot → ℚ
  growth : FundamentalSnapshot → ℚ
  moat : FundamentalSnapshot → ℚ
  risk : FundamentalSnapshot → ℚ

/-- Field names of the ScoredCompany dataclass as declared in models.py
(its `__init__` keyword parameters). -/
def scored_company_fields : List String :=
  ["symbol", "quality", "value", "growth", "risk", "total", "sector", "market_cap", "period"]

/-- Keyword-argument names FundamentalScorer.score passes to
`ScoredCompany(...)` in fundamental_scoring.py lines 36-47. -/
def scorer_kwarg_keys : List String :=
  ["symbol", "quality", "value", "growth", "moat", "risk", "total", "sector", "market_cap", "period"]

/-- One iteration of FundamentalScorer.score: compute the five sub-scores and
the weighted total, then construct `ScoredCompany(...)` with the scorer's
keyword arguments.  A Python dataclass raises TypeError when a keyword
argument is not a declared field, modelled by the `Except.error` branch. -/
def score_snapshot (rules : ScoringRules) (symbol : String) (snap : FundamentalSnapshot) :
    Except String ScoredCompany :=
  let quality := rules.quality snap
  let value := rules.value snap
  let growth := rules.growth snap
  let moat := rules.moat snap
  let risk := rules.risk snap
  let total := 35/100 * quality + 20/100 * growth + 20/100 * moat + 15/100 * value + 10/100 * risk
  if scorer_kwarg_keys.all (fun k => scored_company_fields.contains k) then
    Except.ok
      { symbol := symbol, quality := quality, value := value, growth := growth,
        risk := risk, total := total, sector := snap.sector,
        market_cap := snap.market_cap, period := snap.period }
  else
    Except.error "TypeError: ScoredCompany got an unexpected keyword argument"

/-- FundamentalScorer.score from fundamental_scoring.py: one ScoredCompany
per snapshot; a raised exception aborts the whole call. -/
def score (rules : ScoringRules) (symbol : String) :
    List FundamentalSnapshot → Except String (List ScoredCompany)
  | [] => Except.ok []
  | snap :: rest =>
    match score_snapshot rules symbol snap with
    | Except.error e => Except.error e
    | Except.ok sc =>
      match score rules symbol rest with
      | Except.error e => Except.error e
      | Except.ok scs => Except.ok (sc :: scs)

/-- C1: the claim states FundamentalScorer.score never raises and produces one
ScoredCompany (with all five sub-scores) per snapshot.  The code contradicts
it: models.py's ScoredCompany has no `moat` field, so the constructor call in
fundamental_scoring.py raises TypeError for every non-empty snapshot list,
whatever the scoring rules.  The repository's own test
(test_scoring_weights.py, `assert scored.moat == ...`) shows the field was
intended, so this is a bug in models.py. -/
theorem score_raises_on_any_snapshot (rules : ScoringRules) (symbol : String)
    (snap : FundamentalSnapshot) (rest : List FundamentalSnapshot) :
    score rules symbol (snap :: rest) =
      Except.error "TypeError: ScoredCompany got an unexpected keyword argument" := rfl

/-- C2 counterexample: `moat_score` on an entirely empty metrics mapping
returns 1/2 (= 0.5), not 50.0 as the claim states. -/
theorem moat_score_empty_ne_fifty :
    moat_score { period := 2024, market_cap := 0, sector := "X", metrics := [] } ≠ 50 ∧
    moat_score { period := 2024, market_cap := 0, sector := "X", metrics := [] } = 1/2 := by
  constructor
  · intro h
    have h2 : (1/2 : ℚ) = 50 := by
      calc (1/2 : ℚ) = moat_score { period := 2024, market_cap := 0, sector := "X", metrics := [] } := by
            simp only [moat_score, metric_with_median, alist_get, MEDIAN_PERCENTILE]
            norm_num
        _ = 50 := h
    norm_num at h2
  · simp only [moat_score, metric_with_median, alist_get, MEDIAN_PERCENTILE]
    norm_num

/-- C2 amended: `moat_score` applied to a FundamentalSnapshot whose metrics
mapping is entirely empty returns exactly 0.5, each of the three components
contributing the MEDIAN_PERCENTILE fallback of 0.5
(0.4·0.5 + 0.3·0.5 + 0.3·0.5 = 0.5). -/
theorem moat_score_empty_metrics (snap : FundamentalSnapshot) (h : snap.metrics = []) :
    moat_score snap =
      4/10 * MEDIAN_PERCENTILE + 3/10 * MEDIAN_PERCENTILE + 3/10 * MEDIAN_PERCENTILE ∧
    moat_score snap = 1/2 := by
  simp only [moat_score, metric_with_median, h, alist_get, MEDIAN_PERCENTILE]
  norm_num

/-- C2 witness: the amended theorem applied to a concrete empty-metrics
snapshot. -/
theorem moat_score_empty_metrics_witness :
    moat_score { period := 2024, market_cap := 500000000, sector := "Consumer", metrics := [] } =
      4/10 * MEDIAN_PERCENTILE + 3/10 * MEDIAN_PERCENTILE + 3/10 * MEDIAN_PERCENTILE ∧
    moat_score { period := 2024, market_cap := 500000000, sector := "Consumer", metrics := [] } = 1/2 :=
  moat_score_empty_metrics
    { period := 2024, market_cap := 500000000, sector := "Consumer", metrics := [] } rfl

/-- Quarter index of a date, the embedding of `(dt.month - 1) // 3` from
`Backtester._quarter_starts`. -/
def SimDate.quarter (dt : SimDate) : Nat := (dt.m - 1) / 3

/-- Year-quarter key `(dt.year, quarter)` used by the scheduler's seen-set. -/
def qkey (dt : SimDate) : Nat × Nat := (dt.y, dt.quarter)

/-- Date comparison embedding Python's lexicographic sort of ISO strings
(identical to chronological order for well-formed dates). -/
def date_le (a b : SimDate) : Bool := a.serial ≤ b.serial

/-- Loop of `Backtester._quarter_starts`: walk the sorted calendar, keep each
date whose (year, quarter) key has not been seen yet. -/
def quarter_starts_aux : List SimDate → List (Nat × Nat) → List SimDate
  | [], _ => []
  | d :: rest, seen =>
    if qkey d ∈ seen then quarter_starts_aux rest seen
    else d :: quarter_starts_aux rest (qkey d :: seen)

/-- `Backtester._quarter_starts` from backtester.py. -/
def quarter_starts (dates : List SimDate) : List SimDate :=
  quarter_starts_aux (dates.mergeSort date_le) []

theorem quarter_starts_aux_sublist (l : List SimDate) (seen : List (Nat × Nat)) :
    (quarter_starts_aux l seen).Sublist l := by
  induction l generalizing seen with
  | nil => simp [quarter_starts_aux]
  | cons d rest ih =>
    simp only [quarter_starts_aux]
    split
    · exact (ih seen).cons d
    · exact (ih _).cons₂ d

theorem quarter_starts_aux_not_seen (l : List SimDate) (seen : List (Nat × Nat)) :
    ∀ d ∈ quarter_starts_aux l seen, qkey d ∉ seen := by
  induction l generalizing seen with
  | nil => simp [quarter_starts_aux]
  | cons x rest ih =>
    intro d hd
    simp only [quarter_starts_aux] at hd
    split at hd
    · exact ih seen d hd
    · rcases List.mem_cons.mp hd with rfl | hd'
      · assumption
      · have h2 := ih _ d hd'
        intro hc
        exact h2 (List.mem_cons_of_mem _ hc)

theorem quarter_starts_aux_keys_nodup (l : List SimDate) (seen : List (Nat × Nat)) :
    ((quarter_starts_aux l seen).map qkey).Nodup := by
  induction l generalizing seen with
  | nil => simp [quarter_starts_aux]
  | cons x rest ih =>
    simp only [quarter_starts_aux]
    split
    · exact ih seen
    · simp only [List.map_cons, List.nodup_cons]
      refine ⟨?_, ih _⟩
      intro hmem
      rcases List.mem_map.mp hmem with ⟨d, hd, hq⟩
      have h2 := quarter_starts_aux_not_seen rest (qkey x :: seen) d hd
      rw [hq] at h2
      exact h2 (List.mem_cons_self _ _)

theorem quarter_starts_aux_covers (l : List SimDate) (seen : List (Nat × Nat)) :
    ∀ d ∈ l, qkey d ∉ seen → qkey d ∈ (quarter_starts_aux l seen).map qkey := by
  induction l generalizing seen with
  | nil => simp
  | cons x rest ih =>
    intro d hd hns
    simp only [quarter_starts_aux]
    split
    · rcases List.mem_cons.mp hd with rfl | hd'
      · exact absurd (by assumption) hns
      · exact ih seen d hd' hns
    · rcases List.mem_cons.mp hd with rfl | hd'
      · simp
      · by_cases hq : qkey d = qkey x
        · simp [hq]
        · have hns' : qkey d ∉ qkey x :: seen := by
            intro hc
            rcases List.mem_cons.mp hc with h | h
            · exact hq h
            · exact hns h
          have h3 := ih _ d hd' hns'
          simp only [List.map_cons, List.mem_cons]
          exact Or.inr h3

theorem quarter_starts_aux_min (l : List SimDate) (seen : List (Nat × Nat))
    (hs : l.Pairwise (fun a b => a.serial ≤ b.serial)) :
    ∀ d ∈ quarter_starts_aux l seen, ∀ e ∈ l, qkey e = qkey d → d.serial ≤ e.serial := by
  induction l generalizing seen with
  | nil => simp [quarter_starts_aux]
  | cons x rest ih =>
    rcases List.pairwise_cons.mp hs with ⟨hx, hrest⟩
    intro d hd e he hq
    simp only [quarter_starts_aux] at hd
    split at hd
    · rcases List.mem_cons.mp he with rfl | he'
      · have hnotin := quarter_starts_aux_not_seen rest seen d hd
        rw [hq] at *
        exact absurd (by assumption) hnotin
      · exact ih seen hrest d hd e he' hq
    · rcases List.mem_cons.mp hd with rfl | hd'
      · rcases List.mem_cons.mp he with rfl | he'
        · exact le_refl _
        · exact hx e he'
      · rcases List.mem_cons.mp he with rfl | he'
        · have hnotin := quarter_starts_aux_not_seen rest _ d hd'
          rw [hq] at hnotin
          exact absurd (List.mem_cons_self _ _) hnotin
        · exact ih _ hrest d hd' e he' hq

theorem mergeSort_date_pairwise (dates : List SimDate) :
    (dates.mergeSort date_le).Pairwise (fun a b => a.serial ≤ b.serial) := by
  have htrans : ∀ a b c : SimDate, date_le a b = true → date_le b c = true → date_le a c = true := by
    intro a b c hab hbc
    simp only [date_le, decide_eq_true_eq] at *
    exact le_trans hab hbc
  have htotal : ∀ a b : SimDate, (date_le a b || date_le b a) = true := by
    intro a b
    simp only [date_le, Bool.or_eq_true, decide_eq_true_eq]
    exact Nat.le_total a.serial b.serial
  have h := List.sorted_mergeSort htrans htotal dates
  exact h.imp (fun hab => by simpa [date_le] using hab)

/-- Example calendar from the claim. -/
def c3_example_dates : List SimDate :=
  [⟨2020, 1, 2⟩, ⟨2020, 3, 30⟩, ⟨2020, 3, 31⟩, ⟨2020, 4, 1⟩, ⟨2020, 6, 30⟩]

/-- C3 counterexample: on the claim's example calendar the scheduler returns
[2020-01-02, 2020-04-01] (2020-03-30/31 lie in Q1, already represented by
2020-01-02; 2020-06-30 lies in Q2, already represented by 2020-04-01), not
the [2020-01-02, 2020-03-30, 2020-06-30] the claim states. -/
theorem quarter_starts_example_ne_claim :
    quarter_starts c3_example_dates = [⟨2020, 1, 2⟩, ⟨2020, 4, 1⟩] ∧
    quarter_starts c3_example_dates ≠
      [⟨2020, 1, 2⟩, ⟨2020, 3, 30⟩, ⟨2020, 6, 30⟩] := by
  have h : quarter_starts c3_example_dates = [⟨2020, 1, 2⟩, ⟨2020, 4, 1⟩] := by
    simp [quarter_starts, c3_example_dates, List.mergeSort, date_le, SimDate.serial,
      quarter_starts_aux, qkey, SimDate.quarter]
  refine ⟨h, ?_⟩
  rw [h]
  simp

/-- C3 amended: for every list of trading dates the scheduler returns exactly
one date per (year, quarter) pair present in the input — its keys are
pairwise distinct, cover every input date's key, and each returned date is an
input date that is earliest (by serial order) within its (year, quarter)
class — listed in ascending date order.  On the claim's example calendar it
returns [2020-01-02, 2020-04-01], not [2020-01-02, 2020-03-30, 2020-06-30]. -/
theorem quarter_starts_spec (dates : List SimDate) :
    ((quarter_starts dates).map qkey).Nodup ∧
    (∀ d ∈ dates, qkey d ∈ (quarter_starts dates).map qkey) ∧
    (∀ d ∈ quarter_starts dates, d ∈ dates ∧
      ∀ e ∈ dates, qkey e = qkey d → d.serial ≤ e.serial) ∧
    (quarter_starts dates).Pairwise (fun a b => a.serial ≤ b.serial) ∧
    quarter_starts c3_example_dates = [⟨2020, 1, 2⟩, ⟨2020, 4, 1⟩] := by
  have hperm : ∀ d, d ∈ dates.mergeSort date_le ↔ d ∈ dates := by
    intro d
    exact List.mem_mergeSort
  refine ⟨?_, ?_, ?_, ?_, ?_⟩
  · exact quarter_starts_aux_keys_nodup _ []
  · intro d hd
    exact quarter_starts_aux_covers _ [] d ((hperm d).mpr hd) (by simp)
  · intro d hd
    have hsub := quarter_starts_aux_sublist (dates.mergeSort date_le) []
    constructor
    · exact (hperm d).mp (hsub.mem hd)
    · intro e he hq
      exact quarter_starts_aux_min _ [] (mergeSort_date_pairwise dates) d hd e
        ((hperm e).mpr he) hq
  · exact List.Pairwise.sublist (quarter_starts_aux_sublist _ []) (mergeSort_date_pairwise dates)
  · simp [quarter_starts, c3_example_dates, List.mergeSort, date_le, SimDate.serial,
      quarter_starts_aux, qkey, SimDate.quarter]

/-- `Backtester._cagr` from backtester.py.  The Python `**` on floats is real
exponentiation, modelled with `Real.rpow`; `years = max(1, len/252)` and the
exponent is `1 / years`. -/
noncomputable def cagr : List (SimDate × ℚ) → ℝ
  | [] => 0
  | c :: rest =>
    let start_value : ℝ := (c.2 : ℝ)
    let end_value : ℝ := (((c :: rest).getLast (List.cons_ne_nil c rest)).2 : ℝ)
    let years : ℝ := max 1 (((c :: rest).length : ℝ) / 252)
    (end_value / start_value) ^ ((1 : ℝ) / years) - 1

/-- C4 counterexample: on the two-entry equity curve [100, 200] the code
reports (200/100)^(1/max(1, 2/252)) − 1 = 2^1 − 1 = 1, while the claim's
formula (end/start)^(252/n_days) − 1 gives 2^126 − 1. -/
theorem cagr_two_day_ne_claim :
    cagr [(⟨2020, 1, 2⟩, 100), (⟨2020, 1, 3⟩, 200)] = 1 ∧
    cagr [(⟨2020, 1, 2⟩, 100), (⟨2020, 1, 3⟩, 200)] ≠
      ((200 : ℝ) / 100) ^ ((252 : ℝ) / 2) - 1 := by
  have hval : cagr [(⟨2020, 1, 2⟩, 100), (⟨2020, 1, 3⟩, 200)] = 1 := by
    simp only [cagr, List.getLast, List.length_cons, List.length_nil]
    norm_num
  refine ⟨hval, ?_⟩
  rw [hval]
  have h2 : ((200 : ℝ) / 100) ^ ((252 : ℝ) / 2) = 2 ^ (126 : ℕ) := by
    rw [show ((200 : ℝ) / 100) = 2 by norm_num,
      show ((252 : ℝ) / 2) = ((126 : ℕ) : ℝ) by norm_num,
      Real.rpow_natCast]
  rw [h2]
  norm_num

/-- C4 amended: the reported CAGR equals (end/start)^(252/n_days) − 1 only
for curves with n_days ≥ 252; the code's exponent is 1/max(1, n/252), which
annualizes with exponent 1 for shorter curves (minimum one year). -/
theorem cagr_formula_of_length_ge (c : SimDate × ℚ) (rest : List (SimDate × ℚ))
    (hstart : 0 < c.2) (hlen : 252 ≤ (c :: rest).length) :
    cagr (c :: rest) =
      ((((c :: rest).getLast (List.cons_ne_nil c rest)).2 : ℝ) / (c.2 : ℝ)) ^
        ((252 : ℝ) / ((c :: rest).length : ℝ)) - 1 := by
  have hn : (0 : ℝ) < ((c :: rest).length : ℝ) := by
    have : 0 < (c :: rest).length := List.length_pos.mpr (List.cons_ne_nil c rest)
    exact_mod_cast this
  have hge : (1 : ℝ) ≤ ((c :: rest).length : ℝ) / 252 := by
    rw [le_div_iff (by norm_num : (0 : ℝ) < 252)]
    have : (252 : ℝ) ≤ ((c :: rest).length : ℝ) := by exact_mod_cast hlen
    linarith
  have hmax : max (1 : ℝ) (((c :: rest).length : ℝ) / 252) =
      ((c :: rest).length : ℝ) / 252 := max_eq_right hge
  have hexp : (1 : ℝ) / (((c :: rest).length : ℝ) / 252) =
      (252 : ℝ) / ((c :: rest).length : ℝ) := by
    rw [one_div_div]
  simp only [cagr, hmax, hexp]

/-- Concrete 252-entry flat equity curve used by the C4 witness. -/
def c4_witness_curve : List (SimDate × ℚ) :=
  (⟨2020, 1, 2⟩, (100 : ℚ)) :: List.replicate 251 (⟨2020, 1, 2⟩, (100 : ℚ))

theorem c4_witness_curve_ne_nil : c4_witness_curve ≠ [] :=
  List.cons_ne_nil _ _

/-- C4 witness: the amended theorem applied to a concrete 252-entry flat
curve (all hypotheses discharged). -/
theorem cagr_formula_witness :
    cagr c4_witness_curve =
      (((c4_witness_curve.getLast c4_witness_curve_ne_nil).2 : ℝ) / ((100 : ℚ) : ℝ)) ^
        ((252 : ℝ) / (c4_witness_curve.length : ℝ)) - 1 :=
  cagr_formula_of_length_ge (⟨2020, 1, 2⟩, (100 : ℚ))
    (List.replicate 251 (⟨2020, 1, 2⟩, (100 : ℚ))) (by norm_num)
    (by simp only [List.length_cons, List.length_replicate]; norm_num)

/-- Per-symbol `{bar.date: bar.close for bar in prices}` dict built by
`Backtester.run` (a later bar overwrites an earlier bar of the same date). -/
def build_price_lookup (prices : List PriceBar) : List (SimDate × ℚ) :=
  prices.foldl (fun m bar => alist_set m bar.date bar.close) []

/-- `Backtester._get_price` from backtester.py: the day's close from the
date→close dict if present, otherwise the close of the LAST bar of the
symbol's entire history (`history[-1].close`), or 0 with no history. -/
def get_price (price_lookup : List (String × List (SimDate × ℚ)))
    (price_history : List (String × List PriceBar))
    (symbol : String) (date : SimDate) : ℚ :=
  match alist_get ((alist_get price_lookup symbol).getD []) date with
  | some p => p
  | none =>
    match ((alist_get price_history symbol).getD []).getLast? with
    | some bar => bar.close
    | none => 0

theorem build_price_lookup_some (hist : List PriceBar) (date : SimDate) (c : ℚ) :
    alist_get (build_price_lookup hist) date = some c →
    ∃ bar ∈ hist, bar.date = date ∧ bar.close = c := by
  suffices h : ∀ (m : List (SimDate × ℚ)),
      alist_get (hist.foldl (fun m bar => alist_set m bar.date bar.close) m) date = some c →
      (∃ bar ∈ hist, bar.date = date ∧ bar.close = c) ∨ alist_get m date = some c by
    intro hget
    rcases h [] hget with hl | hr
    · exact hl
    · simp [alist_get] at hr
  induction hist with
  | nil =>
    intro m hget
    exact Or.inr hget
  | cons bar rest ih =>
    intro m hget
    simp only [List.foldl_cons] at hget
    rcases ih _ hget with hl | hr
    · rcases hl with ⟨b, hb, hbd, hbc⟩
      exact Or.inl ⟨b, List.mem_cons_of_mem _ hb, hbd, hbc⟩
    · rw [alist_get_set] at hr
      by_cases hd : bar.date = date
      · rw [if_pos hd] at hr
        exact Or.inl ⟨bar, List.mem_cons_self _ _, hd, (Option.some.injEq _ _ ▸ hr).symm ▸ rfl⟩
      · rw [if_neg hd] at hr
        exact Or.inr hr

theorem build_price_lookup_none (hist : List PriceBar) (date : SimDate) :
    alist_get (build_price_lookup hist) date = none →
    ∀ bar ∈ hist, bar.date ≠ date := by
  suffices h : ∀ (m : List (SimDate × ℚ)),
      alist_get (hist.foldl (fun m bar => alist_set m bar.date bar.close) m) date = none →
      (∀ bar ∈ hist, bar.date ≠ date) ∧ alist_get m date = none by
    intro hget
    exact (h [] hget).1
  induction hist with
  | nil =>
    intro m hget
    exact ⟨by simp, hget⟩
  | cons bar rest ih =>
    intro m hget
    simp only [List.foldl_cons] at hget
    rcases ih _ hget with ⟨hrest, hm⟩
    rw [alist_get_set] at hm
    by_cases hd : bar.date = date
    · rw [if_pos hd] at hm
      exact absurd hm (by simp)
    · rw [if_neg hd] at hm
      refine ⟨?_, hm⟩
      intro b hb
      rcases List.mem_cons.mp hb with rfl | hb'
      · exact hd
      · exact hrest b hb'

/-- History used in the C5 counterexample: closes 10 on 2020-01-02 and 20 on
2020-01-10; the valuation date 2020-01-05 has no bar. -/
def c5_hist : List PriceBar :=
  [{ date := ⟨2020, 1, 2⟩, close := 10 }, { date := ⟨2020, 1, 10⟩, close := 20 }]

/-- C5 counterexample: marking to market on 2020-01-05 (no bar that day) uses
price 20 — the close of the 2020-01-10 bar, dated AFTER the valuation date —
not 10, the latest close on or before the valuation date. -/
theorem get_price_uses_future_close :
    get_price [("A", build_price_lookup c5_hist)] [("A", c5_hist)] "A" ⟨2020, 1, 5⟩ = 20 ∧
    (∀ bar ∈ c5_hist, bar.close = 20 → (⟨2020, 1, 5⟩ : SimDate).serial < bar.date.serial) ∧
    (∃ bar ∈ c5_hist, bar.date.serial ≤ (⟨2020, 1, 5⟩ : SimDate).serial ∧ bar.close = 10) := by
  refine ⟨?_, ?_, ?_⟩
  · rfl
  · intro bar hbar hc
    rcases List.mem_cons.mp hbar with rfl | hbar'
    · exact absurd hc (by norm_num)
    · rcases List.mem_cons.mp hbar' with rfl | h
      · simp [SimDate.serial]
      · simp at h
  · refine ⟨{ date := ⟨2020, 1, 2⟩, close := 10 }, by simp [c5_hist], by simp [SimDate.serial], rfl⟩

/-- C5 amended: the price used to mark a position to market equals that
date's close when the lookup (built from the symbol's bars, later duplicates
winning) has a bar for the date; otherwise it is the close of the LAST bar of
the symbol's entire history regardless of its date — which may lie after the
valuation date — and 0 when the history is empty.  The fallback is not
restricted to closes on or before the valuation date. -/
theorem get_price_spec (sym : String) (hist : List PriceBar) (date : SimDate) :
    (∀ c, alist_get (build_price_lookup hist) date = some c →
      get_price [(sym, build_price_lookup hist)] [(sym, hist)] sym date = c ∧
      ∃ bar ∈ hist, bar.date = date ∧ bar.close = c) ∧
    (alist_get (build_price_lookup hist) date = none →
      (∀ bar ∈ hist, bar.date ≠ date) ∧
      get_price [(sym, build_price_lookup hist)] [(sym, hist)] sym date =
        ((hist.getLast?).map (fun bar => bar.close)).getD 0) := by
  constructor
  · intro c hc
    refine ⟨?_, build_price_lookup_some hist date c hc⟩
    simp [get_price, alist_get, hc]
  · intro hn
    refine ⟨build_price_lookup_none hist date hn, ?_⟩
    cases hlast : hist.getLast? <;> simp [get_price, alist_get, hn, hlast]

/-- C5 witness: the amended theorem applied to the concrete history of the
counterexample, on both branches (date with a bar, date without). -/
theorem get_price_spec_witness :
    get_price [("A", build_price_lookup c5_hist)] [("A", c5_hist)] "A" ⟨2020, 1, 2⟩ = 10 ∧
    get_price [("A", build_price_lookup c5_hist)] [("A", c5_hist)] "A" ⟨2020, 1, 5⟩ =
      ((c5_hist.getLast?).map (fun bar => bar.close)).getD 0 :=
  ⟨((get_price_spec "A" c5_hist ⟨2020, 1, 2⟩).1 10 rfl).1,
   ((get_price_spec "A" c5_hist ⟨2020, 1, 5⟩).2 rfl).2⟩

/-- Exit reasons `_allow_sell` classifies as fundamental (always allowed). -/
def fundamental_reasons : List String :=
  ["Bear regime", "Lost TOP100", "ValueScore guardrail", "Below TOP3N buffer"]

/-- Signed day difference `(datetime(date) - datetime(entry)).days`. -/
def held_days (entry date : SimDate) : Int :=
  (day_number date : Int) - (day_number entry : Int)

/-- `Backtester._allow_sell` from backtester.py: fundamental exits always
allowed; otherwise a held position with an entry date must satisfy the 90-day
minimum holding period (an unheld symbol or an empty entry date is allowed). -/
def allow_sell (order : Order) (holdings : List (String × Position)) (date : SimDate) : Bool :=
  if fundamental_reasons.contains order.reason then true
  else
    match alist_get holdings order.symbol with
    | none => true
    | some pos =>
      match pos.entry_date with
      | none => true
      | some entry => 90 ≤ held_days entry date

/-- C8: a SELL whose reason is one of the four fundamental exit reasons is
always allowed, regardless of the position's entry date; a SELL with any
other reason, for a position present in holdings with an entry date, is
allowed exactly when the position has been held at least 90 days. -/
theorem allow_sell_spec (order : Order) (holdings : List (String × Position)) (date : SimDate) :
    (order.reason = "Bear regime" ∨ order.reason = "Lost TOP100" ∨
      order.reason = "ValueScore guardrail" ∨ order.reason = "Below TOP3N buffer" →
      allow_sell order holdings date = true) ∧
    (∀ pos entry,
      ¬(order.reason = "Bear regime" ∨ order.reason = "Lost TOP100" ∨
        order.reason = "ValueScore guardrail" ∨ order.reason = "Below TOP3N buffer") →
      alist_get holdings order.symbol = some pos →
      pos.entry_date = some entry →
      (allow_sell order holdings date = true ↔ 90 ≤ held_days entry date)) := by
  have hmem : fundamental_reasons.contains order.reason = true ↔
      (order.reason = "Bear regime" ∨ order.reason = "Lost TOP100" ∨
        order.reason = "ValueScore guardrail" ∨ order.reason = "Below TOP3N buffer") := by
    simp [fundamental_reasons, List.contains_eq_any_beq]
  constructor
  · intro h
    simp only [allow_sell, hmem.mpr h, if_true]
  · intro pos entry hnot hget hentry
    have hcontains : fundamental_reasons.contains order.reason = false := by
      rcases h : fundamental_reasons.contains order.reason with _ | _
      · rfl
      · exact absurd (hmem.mp h) hnot
    simp only [allow_sell, hcontains, Bool.false_eq_true, if_false, hget, hentry,
      decide_eq_true_eq]

/-- Concrete "Bear regime" SELL order used by the C8 witness. -/
def c8_bear_order : Order :=
  { symbol := "A", action := "SELL", quantity := 1, currency := "USD",
    reason := "Bear regime", price := none }

def c8_sma_order : Order :=
  { symbol := "A", action := "SELL", quantity := 1, currency := "USD",
    reason := "Price below SMA200", price := none }

def c8_position : Position :=
  { symbol := "A", quantity := 1, currency := "USD", weight := 0,
    cost_basis := 10, entry_date := some ⟨2020, 1, 1⟩ }

/-- C8 witness: the theorem applied at concrete inputs — a "Bear regime" SELL
on a position held 1 day is allowed; a "Price below SMA200" SELL on a
position held 10 days is blocked; the same SELL held 91 days is allowed. -/
theorem allow_sell_spec_witness :
    allow_sell c8_bear_order [("A", c8_position)] ⟨2020, 1, 2⟩ = true ∧
    allow_sell c8_sma_order [("A", c8_position)] ⟨2020, 1, 11⟩ = false ∧
    allow_sell c8_sma_order [("A", c8_position)] ⟨2020, 4, 1⟩ = true := by
  refine ⟨?_, ?_, ?_⟩
  · exact (allow_sell_spec c8_bear_order [("A", c8_position)] ⟨2020, 1, 2⟩).1 (Or.inl rfl)
  · have h := (allow_sell_spec c8_sma_order [("A", c8_position)] ⟨2020, 1, 11⟩).2
      c8_position ⟨2020, 1, 1⟩ (by decide) rfl rfl
    have hlt : ¬ (90 ≤ held_days ⟨2020, 1, 1⟩ ⟨2020, 1, 11⟩) := by decide
    rcases hb : allow_sell c8_sma_order [("A", c8_position)] ⟨2020, 1, 11⟩ with _ | _
    · rfl
    · exact absurd (h.mp hb) hlt
  · exact ((allow_sell_spec c8_sma_order [("A", c8_position)] ⟨2020, 4, 1⟩).2
      c8_position ⟨2020, 1, 1⟩ (by decide) rfl rfl).mpr (by decide)

theorem alist_get_mem {κ β : Type} [DecidableEq κ] (l : List (κ × β)) (k : κ) (v : β) :
    alist_get l k = some v → (k, v) ∈ l := by
  induction l with
  | nil => intro h; simp [alist_get] at h
  | cons p rest ih =>
    obtain ⟨pk, pv⟩ := p
    intro h
    by_cases hpk : pk = k
    · subst hpk
      rw [alist_get, if_pos rfl] at h
      cases h
      exact List.mem_cons_self _ _
    · rw [alist_get, if_neg hpk] at h
      exact List.mem_cons_of_mem _ (ih h)

theorem mem_alist_del {κ β : Type} [DecidableEq κ] (l : List (κ × β)) (k : κ) (p : κ × β) :
    p ∈ alist_del l k → p ∈ l := by
  induction l with
  | nil => intro h; simp [alist_del] at h
  | cons q rest ih =>
    obtain ⟨qk, qv⟩ := q
    intro h
    by_cases hqk : qk = k
    · rw [alist_del, if_pos hqk] at h
      exact List.mem_cons_of_mem _ h
    · rw [alist_del, if_neg hqk] at h
      rcases List.mem_cons.mp h with rfl | h'
      · exact List.mem_cons_self _ _
      · exact List.mem_cons_of_mem _ (ih h')

theorem mem_alist_set {κ β : Type} [DecidableEq κ] (l : List (κ × β)) (k : κ) (v : β) (p : κ × β) :
    p ∈ alist_set l k v → p = (k, v) ∨ p ∈ l := by
  induction l with
  | nil =>
    intro h
    simp [alist_set] at h
    exact Or.inl h
  | cons q rest ih =>
    obtain ⟨qk, qv⟩ := q
    intro h
    by_cases hqk : qk = k
    · rw [alist_set, if_pos hqk] at h
      rcases List.mem_cons.mp h with rfl | h'
      · exact Or.inl rfl
      · exact Or.inr (List.mem_cons_of_mem _ h')
    · rw [alist_set, if_neg hqk] at h
      rcases List.mem_cons.mp h with rfl | h'
      · exact Or.inr (List.mem_cons_self _ _)
      · rcases ih h' with h'' | h''
        · exact Or.inl h''
        · exact Or.inr (List.mem_cons_of_mem _ h'')

theorem get_price_nonneg (pl : List (String × List (SimDate × ℚ)))
    (ph : List (String × List PriceBar)) (sym : String) (date : SimDate)
    (hpl : ∀ s m, alist_get pl s = some m → ∀ d c, alist_get m d = some c → 0 ≤ c)
    (hph : ∀ s h, alist_get ph s = some h → ∀ bar ∈ h, 0 ≤ bar.close) :
    0 ≤ get_price pl ph sym date := by
  unfold get_price
  cases hm : alist_get pl sym with
  | some m =>
    cases hc : alist_get m date with
    | some c =>
      simp only [hm, Option.getD_some, hc]
      exact hpl sym m hm date c hc
    | none =>
      simp only [hm, Option.getD_some, hc]
      cases hh : alist_get ph sym with
      | some h =>
        simp only [hh, Option.getD_some]
        cases hl : h.getLast? with
        | some bar =>
          have hbar : bar ∈ h := List.mem_of_mem_getLast? (by rw [hl]; rfl)
          simp only [hl]
          exact hph sym h hh bar hbar
        | none => simp [hl]
      | none => simp [hh, alist_get]
  | none =>
    simp only [hm, Option.getD_none, alist_get]
    cases hh : alist_get ph sym with
    | some h =>
      simp only [hh, Option.getD_some]
      cases hl : h.getLast? with
      | some bar =>
        have hbar : bar ∈ h := List.mem_of_mem_getLast? (by rw [hl]; rfl)
        simp only [hl]
        exact hph sym h hh bar hbar
      | none => simp [hl]
    | none => simp [hh, alist_get]

/-- State threaded through the order-fill loop of `Backtester.run`:
`capital_pln` and the `holdings` dict. -/
structure FillState where
  capital : ℚ
  holdings : List (String × Position)
deriving DecidableEq

/-- `price = order.price or self._get_price(...)` from the fill loop: Python
`or` falls through when `order.price` is `None` OR `0.0` (falsy). -/
def order_fill_price (pl : List (String × List (SimDate × ℚ)))
    (ph : List (String × List PriceBar)) (date : SimDate) (order : Order) : ℚ :=
  match order.price with
  | some p => if p = 0 then get_price pl ph order.symbol date else p
  | none => get_price pl ph order.symbol date

/-- One iteration of the order-fill loop in `Backtester.run` (lines 111-132):
zero price skips the order; a SELL passing `_allow_sell` releases
`quantity * price` into cash and deletes the position; any other action is a
BUY sized `capital * max_position / price`, inserted with today's date as
entry date, its cost deducted from cash. -/
def fill_order (pl : List (String × List (SimDate × ℚ)))
    (ph : List (String × List PriceBar)) (max_position : ℚ) (date : SimDate)
    (st : FillState) (order : Order) : FillState :=
  if order_fill_price pl ph date order = 0 then st
  else if order.action = "SELL" then
    if allow_sell order st.holdings date then
      match alist_get st.holdings order.symbol with
      | some pos =>
        { capital := st.capital + pos.quantity * order_fill_price pl ph date order,
          holdings := alist_del st.holdings order.symbol }
      | none => st
    else st
  else
    { capital := st.capital -
        st.capital * max_position / order_fill_price pl ph date order *
          order_fill_price pl ph date order,
      holdings := alist_set st.holdings order.symbol
        { symbol := order.symbol,
          quantity := st.capital * max_position / order_fill_price pl ph date order,
          currency := order.currency, weight := max_position,
          cost_basis := order_fill_price pl ph date order, entry_date := some date } }

/-- The whole order-fill pass of one simulated day. -/
def fill_orders (pl : List (String × List (SimDate × ℚ)))
    (ph : List (String × List PriceBar)) (max_position : ℚ) (date : SimDate)
    (st : FillState) (orders : List Order) : FillState :=
  orders.foldl (fill_order pl ph max_position date) st

/-- Concrete BUY order used by the C6 counterexample: positive price, issued
when available capital is exactly 0. -/
def c6_buy_order : Order :=
  { symbol := "A", action := "BUY", quantity := 0, currency := "USD",
    reason := "Enter TOP15", price := some 10 }

/-- C6 counterexample: filling a BUY when available capital is 0 inserts a
position with quantity 0 into holdings — a zero-quantity position IS retained
after the fill step, contradicting the claim that no position with quantity 0
is ever kept. -/
theorem fill_retains_zero_quantity_position :
    alist_get
      (fill_order [] [] (25/100) ⟨2020, 4, 1⟩
        { capital := 0, holdings := [] } c6_buy_order).holdings "A" =
      some { symbol := "A", quantity := 0, currency := "USD", weight := 25/100,
             cost_basis := 10, entry_date := some ⟨2020, 4, 1⟩ } := by
  have hq : (0 : ℚ) * (25/100) / 10 = 0 := by norm_num
  simp [fill_order, order_fill_price, c6_buy_order, alist_get, alist_set, hq]

theorem fill_order_step (pl : List (String × List (SimDate × ℚ)))
    (ph : List (String × List PriceBar)) (mp : ℚ) (date : SimDate)
    (st : FillState) (order : Order)
    (hpl : ∀ s m, alist_get pl s = some m → ∀ d c, alist_get m d = some c → 0 ≤ c)
    (hph : ∀ s h, alist_get ph s = some h → ∀ bar ∈ h, 0 ≤ bar.close)
    (hmp0 : 0 ≤ mp) (hmp1 : mp ≤ 1)
    (hop : ∀ p, order.price = some p → 0 ≤ p)
    (hcap : 0 ≤ st.capital)
    (hq : ∀ e ∈ st.holdings, 0 ≤ (e.2).quantity) :
    0 ≤ (fill_order pl ph mp date st order).capital ∧
    ∀ e ∈ (fill_order pl ph mp date st order).holdings, 0 ≤ (e.2).quantity := by
  have hprice : 0 ≤ order_fill_price pl ph date order := by
    unfold order_fill_price
    cases hp : order.price with
    | none => exact get_price_nonneg pl ph order.symbol date hpl hph
    | some p =>
      by_cases hz : p = 0
      · simp only [hz, if_pos rfl]
        exact get_price_nonneg pl ph order.symbol date hpl hph
      · simp only [if_neg hz]
        exact hop p hp
  have hqty : 0 ≤ st.capital * mp / order_fill_price pl ph date order :=
    div_nonneg (mul_nonneg hcap hmp0) hprice
  unfold fill_order
  split_ifs with h1 h2 h3
  · exact ⟨hcap, hq⟩
  · cases hget : alist_get st.holdings order.symbol with
    | some pos =>
      have hposq : 0 ≤ pos.quantity :=
        hq (order.symbol, pos) (alist_get_mem st.holdings order.symbol pos hget)
      have hmul : 0 ≤ pos.quantity * order_fill_price pl ph date order :=
        mul_nonneg hposq hprice
      constructor
      · simp only
        linarith
      · intro e he
        simp only at he
        exact hq e (mem_alist_del st.holdings order.symbol e he)
    | none => exact ⟨hcap, hq⟩
  · exact ⟨hcap, hq⟩
  · constructor
    · simp only
      rw [div_mul_cancel₀ _ h1]
      have hle : st.capital * mp ≤ st.capital * 1 := mul_le_mul_of_nonneg_left hmp1 hcap
      rw [mul_one] at hle
      linarith
    · intro e he
      simp only at he
      rcases mem_alist_set st.holdings order.symbol _ e he with rfl | h'
      · exact hqty
      · exact hq e h'

/-- C6 amended: under nonnegative price data, order limit prices, available
capital, and a max_position fraction within [0, 1], every order-fill pass
preserves nonnegative cash and nonnegative quantities for every held
position.  The second half of the original claim is false: a SELL fill does
delete the position outright, but a BUY filled with zero available capital
inserts (and retains) a position with quantity exactly 0. -/
theorem fill_orders_quantities_nonneg (pl : List (String × List (SimDate × ℚ)))
    (ph : List (String × List PriceBar)) (mp : ℚ) (date : SimDate)
    (orders : List Order) (st : FillState)
    (hpl : ∀ s m, alist_get pl s = some m → ∀ d c, alist_get m d = some c → 0 ≤ c)
    (hph : ∀ s h, alist_get ph s = some h → ∀ bar ∈ h, 0 ≤ bar.close)
    (hmp0 : 0 ≤ mp) (hmp1 : mp ≤ 1)
    (hord : ∀ o ∈ orders, ∀ p, o.price = some p → 0 ≤ p)
    (hcap : 0 ≤ st.capital)
    (hq : ∀ e ∈ st.holdings, 0 ≤ (e.2).quantity) :
    0 ≤ (fill_orders pl ph mp date st orders).capital ∧
    ∀ e ∈ (fill_orders pl ph mp date st orders).holdings, 0 ≤ (e.2).quantity := by
  induction orders generalizing st with
  | nil => exact ⟨hcap, hq⟩
  | cons o rest ih =>
    have hstep := fill_order_step pl ph mp date st o hpl hph hmp0 hmp1
      (hord o (List.mem_cons_self _ _)) hcap hq
    have hrest : ∀ o' ∈ rest, ∀ p, o'.price = some p → 0 ≤ p := by
      intro o' ho' p hp
      exact hord o' (List.mem_cons_of_mem _ ho') p hp
    simpa [fill_orders, List.foldl_cons] using
      ih (fill_order pl ph mp date st o) hrest hstep.1 hstep.2

/-- C6 witness: the amended theorem applied to a concrete state (capital
1000, empty holdings) and one priced BUY order, all hypotheses discharged. -/
theorem fill_orders_quantities_nonneg_witness :
    0 ≤ (fill_orders [] [] (25/100) ⟨2020, 4, 1⟩
      { capital := 1000, holdings := [] } [c6_buy_order]).capital ∧
    ∀ e ∈ (fill_orders [] [] (25/100) ⟨2020, 4, 1⟩
      { capital := 1000, holdings := [] } [c6_buy_order]).holdings, 0 ≤ (e.2).quantity :=
  fill_orders_quantities_nonneg [] [] (25/100) ⟨2020, 4, 1⟩ [c6_buy_order]
    { capital := 1000, holdings := [] }
    (by intro s m h; simp [alist_get] at h)
    (by intro s h hh; simp [alist_get] at hh)
    (by norm_num) (by norm_num)
    (by
      intro o ho p hp
      rcases List.mem_cons.mp ho with rfl | h
      · rw [c6_buy_order] at hp
        simp only [Option.some.injEq] at hp
        rw [← hp]
        norm_num
      · simp at h)
    (by norm_num)
    (by intro e he; simp at he)

/-- RebalancingConfig fields used by the weighting code (config.py; defaults
min_position 0.02, max_position 0.25, max_sector_weight 0.30). -/
structure RebalancingConfig where
  min_position : ℚ
  max_position : ℚ
  max_sector_weight : ℚ
deriving DecidableEq

/-- Default RebalancingConfig values from config.py. -/
def default_rebalancing_config : RebalancingConfig :=
  { min_position := 2/100, max_position := 25/100, max_sector_weight := 30/100 }

/-- TargetAllocation from portfolio_manager.py. -/
structure TargetAllocation where
  symbol : String
  weight : ℚ
  score : ScoredCompany
deriving DecidableEq

/-- Value of the `sector_weight` dict of `_apply_constraints` for one sector:
sum of the weights of the allocations in that sector. -/
def sector_weight (allocations : List TargetAllocation) (sector : String) : ℚ :=
  ((allocations.filter (fun a => a.score.sector = sector)).map (fun a => a.weight)).sum

/-- Sector-cap stage of `_apply_constraints`: every allocation whose sector's
pre-cap sum exceeds max_sector_weight is scaled by cap/sector_sum. -/
def cap_sectors (cfg : RebalancingConfig) (allocations : List TargetAllocation) :
    List TargetAllocation :=
  allocations.map (fun a =>
    if sector_weight allocations a.score.sector > cfg.max_sector_weight then
      { a with weight :=
          a.weight * (cfg.max_sector_weight / sector_weight allocations a.score.sector) }
    else a)

/-- Clamp stage of `_apply_constraints`:
`max(cfg.min_position, min(cfg.max_position, weight))`. -/
def clamp_positions (cfg : RebalancingConfig) (allocations : List TargetAllocation) :
    List TargetAllocation :=
  allocations.map (fun a =>
    { a with weight := max cfg.min_position (min cfg.max_position a.weight) })

/-- Renormalize stage of `_apply_constraints`: divide by the total
(`or 1.0` when the total is 0). -/
def renormalize (allocations : List TargetAllocation) : List TargetAllocation :=
  allocations.map (fun a =>
    { a with weight := a.weight /
        (if ((allocations.map (fun b => b.weight)).sum) = 0 then 1
         else (allocations.map (fun b => b.weight)).sum) })

/-- `PortfolioManager._apply_constraints` from portfolio_manager.py: sector
caps (computed on the pre-cap weights), then position-bound clamping, then
renormalization. -/
def apply_constraints (cfg : RebalancingConfig) (allocations : List TargetAllocation) :
    List TargetAllocation :=
  renormalize (clamp_positions cfg (cap_sectors cfg allocations))

/-- `PortfolioManager.build_weights` from portfolio_manager.py: raw weight is
quality / quality_sum with the Python `sum(...) or 1.0` degenerate fallback,
then `_apply_constraints`. -/
def build_weights (cfg : RebalancingConfig) (picks : List ScoredCompany) :
    List TargetAllocation :=
  apply_constraints cfg
    (picks.map (fun p =>
      { symbol := p.symbol,
        weight := p.quality /
          (if ((picks.map (fun q => q.quality)).sum) = 0 then 1
           else (picks.map (fun q => q.quality)).sum),
        score := p }))

theorem clamp_positions_ge (cfg : RebalancingConfig) (l : List TargetAllocation) :
    ∀ a ∈ clamp_positions cfg l, cfg.min_position ≤ a.weight := by
  intro a ha
  rcases List.mem_map.mp ha with ⟨b, _, rfl⟩
  exact le_max_left _ _

theorem renormalize_sum_one (l : List TargetAllocation)
    (h : ((l.map (fun b => b.weight)).sum) ≠ 0) :
    (((renormalize l).map (fun b => b.weight)).sum) = 1 := by
  unfold renormalize
  rw [List.map_map]
  have hmap : ((fun b : TargetAllocation => b.weight) ∘
      (fun a : TargetAllocation =>
        { a with weight := a.weight /
            (if ((l.map (fun b => b.weight)).sum) = 0 then 1
             else (l.map (fun b => b.weight)).sum) })) =
      fun a : TargetAllocation => a.weight * ((l.map (fun b => b.weight)).sum)⁻¹ := by
    funext a
    simp [if_neg h, div_eq_mul_inv]
  rw [hmap, List.sum_map_mul_right]
  exact mul_inv_cancel₀ h

/-- C7 counterexample: on an empty picks list `build_weights` returns the
empty allocation list, whose weights sum to 0 — not within 1e-6 of 1.0. -/
theorem build_weights_empty_sum_zero :
    ((build_weights default_rebalancing_config []).map (fun a => a.weight)).sum = 0 ∧
    ¬(|((build_weights default_rebalancing_config []).map (fun a => a.weight)).sum - 1| ≤
        1/1000000) := by
  have h0 : ((build_weights default_rebalancing_config []).map (fun a => a.weight)).sum = 0 := rfl
  refine ⟨h0, ?_⟩
  rw [h0]
  intro h
  rw [show |(0 : ℚ) - 1| = 1 by norm_num [abs_of_nonpos]] at h
  norm_num at h

/-- C7 amended: for every NON-EMPTY list of picks, under any quality
distribution (including the degenerate all-zero case, absorbed by the
`or 1.0` denominators), and any configuration with min_position > 0 (default
0.02), the weights returned by build_weights sum to exactly 1.0; for the
empty picks list the sum is 0. -/
theorem build_weights_sum_one (cfg : RebalancingConfig) (picks : List ScoredCompany)
    (hne : picks ≠ []) (hmin : 0 < cfg.min_position) :
    ((build_weights cfg picks).map (fun a => a.weight)).sum = 1 := by
  unfold build_weights apply_constraints
  apply renormalize_sum_one
  have hpos : ∀ w ∈ ((clamp_positions cfg (cap_sectors cfg
      (picks.map (fun p =>
        { symbol := p.symbol,
          weight := p.quality /
            (if ((picks.map (fun q => q.quality)).sum) = 0 then 1
             else (picks.map (fun q => q.quality)).sum),
          score := p })))).map (fun b => b.weight)), 0 < w := by
    intro w hw
    rcases List.mem_map.mp hw with ⟨a, ha, rfl⟩
    exact lt_of_lt_of_le hmin (clamp_positions_ge cfg _ a ha)
  have hne2 : ((clamp_positions cfg (cap_sectors cfg
      (picks.map (fun p =>
        { symbol := p.symbol,
          weight := p.quality /
            (if ((picks.map (fun q => q.quality)).sum) = 0 then 1
             else (picks.map (fun q => q.quality)).sum),
          score := p })))).map (fun b => b.weight)) ≠ [] := by
    simp only [clamp_positions, cap_sectors, List.map_map, ne_eq, List.map_eq_nil_iff]
    exact hne
  exact ne_of_gt (List.sum_pos _ hpos hne2)

/-- Concrete pick used by the C7 witness. -/
def c7_pick : ScoredCompany :=
  { symbol := "AAA", quality := 80, value := 50, growth := 60, risk := 10,
    total := 65, sector := "Tech", market_cap := 1000000000, period := 2020 }

/-- C7 witness: the amended theorem applied to a concrete one-pick list with
the default configuration. -/
theorem build_weights_sum_one_witness :
    ((build_weights default_rebalancing_config [c7_pick]).map (fun a => a.weight)).sum = 1 :=
  build_weights_sum_one default_rebalancing_config [c7_pick]
    (by simp) (by norm_num [default_rebalancing_config])

/-- MOAT_OUTPUT_KEYS from fundamental_metrics.py: each percentile output key
with the raw source key it is computed from. -/
def MOAT_OUTPUT_KEYS : List (String × String) :=
  [("gross_margin_percentile", "gross_margin_pct"),
   ("r_and_d_to_sales_percentile", "rd_sales_pct"),
   ("roic_trend_percentile", "roic_trend_pct")]

/-- `_percentile_rank` from fundamental_metrics.py: share of peers ≤ value on
a 0-100 scale; 0 for an empty peer list. -/
def percentile_rank (value : ℚ) (peers : List ℚ) : ℚ :=
  if peers = [] then 0
  else ((peers.filter (fun p => decide (p ≤ value))).length : ℚ) / (peers.length : ℚ) * 100

/-- `_median` from fundamental_metrics.py over the present values (0.0 for an
empty list), with `np.median` semantics: sort ascending, middle element for
odd length, mean of the two middle elements for even length. -/
def np_median (values : List ℚ) : ℚ :=
  let s := values.mergeSort (fun a b => decide (a ≤ b))
  if s.length = 0 then 0
  else if s.length % 2 = 1 then s.getD (s.length / 2) 0
  else (s.getD (s.length / 2 - 1) 0 + s.getD (s.length / 2) 0) / 2

/-- All snapshots of the universe in iteration order
(`for snaps in fundamentals.values(): for snap in snaps`). -/
def all_snaps (fundamentals : List (String × List FundamentalSnapshot)) :
    List FundamentalSnapshot :=
  (fundamentals.map (fun p => p.2)).join

/-- Present raw values of one metric within one period (the `year_values`
collection pass: absent values are skipped). -/
def present_values (fundamentals : List (String × List FundamentalSnapshot))
    (period : Nat) (source_key : String) : List ℚ :=
  ((all_snaps fundamentals).filter (fun s => s.period == period)).filterMap
    (fun s => alist_get s.metrics source_key)

/-- `medians[year][output_key]`: cross-sectional median of the present
values, 0.0 when the period has none. -/
def median_for (fundamentals : List (String × List FundamentalSnapshot))
    (period : Nat) (source_key : String) : ℚ :=
  np_median (present_values fundamentals period source_key)

/-- `peers[year][output_key]`: one entry per snapshot of the period in
iteration order, the period median substituted for absent values. -/
def peers_for (fundamentals : List (String × List FundamentalSnapshot))
    (period : Nat) (source_key : String) : List ℚ :=
  ((all_snaps fundamentals).filter (fun s => s.period == period)).map
    (fun s => (alist_get s.metrics source_key).getD
      (median_for fundamentals period source_key))

/-- Enrichment of one snapshot (the inner loop of
`enrich_moat_percentiles`): copy the metrics dict and, for each
(output, source) pair in order, store the percentile rank of the snapshot's
median-substituted value among the period's peers. -/
def enrich_snap (fundamentals : List (String × List FundamentalSnapshot))
    (snap : FundamentalSnapshot) : FundamentalSnapshot :=
  { snap with metrics :=
      (MOAT_OUTPUT_KEYS.foldl (fun m ks =>
        alist_set m ks.1
          (percentile_rank
            ((alist_get m ks.2).getD (median_for fundamentals snap.period ks.2))
            (peers_for fundamentals snap.period ks.2)))
        snap.metrics) }

/-- `FundamentalMetrics.enrich_moat_percentiles` from fundamental_metrics.py:
a new mapping with every snapshot enriched. -/
def enrich_moat_percentiles (fundamentals : List (String × List FundamentalSnapshot)) :
    List (String × List FundamentalSnapshot) :=
  fundamentals.map (fun p => (p.1, p.2.map (enrich_snap fundamentals)))

theorem enrich_snap_stored (fundamentals : List (String × List FundamentalSnapshot))
    (snap : FundamentalSnapshot) :
    ∀ ok sk, (ok, sk) ∈ MOAT_OUTPUT_KEYS →
    alist_get (enrich_snap fundamentals snap).metrics ok =
      some (percentile_rank
        ((alist_get snap.metrics sk).getD (median_for fundamentals snap.period sk))
        (peers_for fundamentals snap.period sk)) := by
  intro ok sk hks
  simp only [MOAT_OUTPUT_KEYS, List.mem_cons, List.mem_singleton, Prod.mk.injEq,
    List.not_mem_nil, or_false] at hks
  unfold enrich_snap
  simp only [MOAT_OUTPUT_KEYS, List.foldl_cons, List.foldl_nil]
  rcases hks with ⟨rfl, rfl⟩ | ⟨rfl, rfl⟩ | ⟨rfl, rfl⟩ <;>
    simp [alist_get_set]

/-- C9: in the percentile enrichment pass, for every symbol, snapshot and
moat metric, the stored percentile equals (count of peers ≤ value) /
(peer count) · 100, where both the snapshot's value and the peer set are
median-substituted, the peer set has exactly one entry per snapshot of the
period, and an empty peer set yields 0. -/
theorem enrich_moat_percentiles_spec
    (fundamentals : List (String × List FundamentalSnapshot))
    (sym : String) (snaps : List FundamentalSnapshot) (snap : FundamentalSnapshot)
    (hmem : (sym, snaps) ∈ fundamentals) (hsnap : snap ∈ snaps) :
    (sym, snaps.map (enrich_snap fundamentals)) ∈ enrich_moat_percentiles fundamentals ∧
    ∀ ok sk, (ok, sk) ∈ MOAT_OUTPUT_KEYS →
      (peers_for fundamentals snap.period sk).length =
        ((all_snaps fundamentals).filter (fun s => s.period == snap.period)).length ∧
      alist_get (enrich_snap fundamentals snap).metrics ok =
        some (if peers_for fundamentals snap.period sk = [] then 0
          else (((peers_for fundamentals snap.period sk).filter
              (fun p => decide (p ≤ (alist_get snap.metrics sk).getD
                (median_for fundamentals snap.period sk)))).length : ℚ) /
            (((peers_for fundamentals snap.period sk).length : ℚ)) * 100) := by
  have hsnap' := hsnap
  constructor
  · exact List.mem_map.mpr ⟨(sym, snaps), hmem, rfl⟩
  · intro ok sk hks
    constructor
    · simp [peers_for]
    · rw [enrich_snap_stored fundamentals snap ok sk hks]
      simp only [percentile_rank]

/-- Concrete snapshot used by the C9 witness: only gross_margin_pct present. -/
def c9_snap : FundamentalSnapshot :=
  { period := 2020, market_cap := 100, sector := "Tech",
    metrics := [("gross_margin_pct", 55)] }

/-- Concrete one-symbol universe used by the C9 witness. -/
def c9_fundamentals : List (String × List FundamentalSnapshot) :=
  [("AAA", [c9_snap])]

/-- C9 witness: the theorem applied to a concrete one-symbol universe. -/
theorem enrich_moat_percentiles_spec_witness :
    ("AAA", [c9_snap].map (enrich_snap c9_fundamentals)) ∈
      enrich_moat_percentiles c9_fundamentals ∧
    ∀ ok sk, (ok, sk) ∈ MOAT_OUTPUT_KEYS →
      (peers_for c9_fundamentals c9_snap.period sk).length =
        ((all_snaps c9_fundamentals).filter (fun s => s.period == c9_snap.period)).length ∧
      alist_get (enrich_snap c9_fundamentals c9_snap).metrics ok =
        some (if peers_for c9_fundamentals c9_snap.period sk = [] then 0
          else (((peers_for c9_fundamentals c9_snap.period sk).filter
              (fun p => decide (p ≤ (alist_get c9_snap.metrics sk).getD
                (median_for c9_fundamentals c9_snap.period sk)))).length : ℚ) /
            (((peers_for c9_fundamentals c9_snap.period sk).length : ℚ)) * 100) :=
  enrich_moat_percentiles_spec c9_fundamentals "AAA" [c9_snap] c9_snap
    (List.mem_singleton.mpr rfl) (List.mem_singleton.mpr rfl)

/-- Per-symbol body of `Backtester._scores_for_year`: keep entries with
market_cap > 0 and period ≤ year, stable-sort by period descending
(`sorted(..., reverse=True)`), take the first; `None` when no entry
qualifies (`if not eligible: continue`). -/
def latest_eligible (entries : List ScoredCompany) (year : Nat) : Option ScoredCompany :=
  ((entries.filter (fun s => decide (0 < s.market_cap) && decide (s.period ≤ year))).mergeSort
    (fun a b => decide (b.period ≤ a.period))).head?

/-- `Backtester._scores_for_year` from backtester.py. -/
def scores_for_year (fundamentals : List (String × List ScoredCompany)) (year : Nat) :
    List ScoredCompany :=
  fundamentals.filterMap (fun p => latest_eligible p.2 year)

/-- C10: when resolving most-recent scores as of a year, an entry is eligible
iff its market_cap is strictly positive AND its period is at most the year;
the selected entry for a symbol is an eligible one with the maximal eligible
period; a symbol with no eligible entry yields none, and such a symbol is
omitted from the day's picks entirely. -/
theorem scores_for_year_spec (entries : List ScoredCompany) (year : Nat) :
    (latest_eligible entries year = none ↔
      ∀ e ∈ entries, ¬(0 < e.market_cap ∧ e.period ≤ year)) ∧
    (∀ e, latest_eligible entries year = some e →
      e ∈ entries ∧ 0 < e.market_cap ∧ e.period ≤ year ∧
      ∀ f ∈ entries, 0 < f.market_cap → f.period ≤ year → f.period ≤ e.period) ∧
    (∀ (pre post : List (String × List ScoredCompany)) (sym : String),
      latest_eligible entries year = none →
      scores_for_year (pre ++ (sym, entries) :: post) year =
        scores_for_year pre year ++ scores_for_year post year) := by
  have htrans : ∀ a b c : ScoredCompany,
      decide (b.period ≤ a.period) = true → decide (c.period ≤ b.period) = true →
      decide (c.period ≤ a.period) = true := by
    intro a b c hab hbc
    simp only [decide_eq_true_eq] at *
    exact le_trans hbc hab
  have htotal : ∀ a b : ScoredCompany,
      (decide (b.period ≤ a.period) || decide (a.period ≤ b.period)) = true := by
    intro a b
    simp only [Bool.or_eq_true, decide_eq_true_eq]
    exact Nat.le_total b.period a.period
  have hperm := List.mergeSort_perm
    (entries.filter (fun s => decide (0 < s.market_cap) && decide (s.period ≤ year)))
    (fun a b => decide (b.period ≤ a.period))
  refine ⟨?_, ?_, ?_⟩
  · rw [latest_eligible, List.head?_eq_none_iff]
    constructor
    · intro hnil
      have hlen0 : (entries.filter
          (fun s => decide (0 < s.market_cap) && decide (s.period ≤ year))).length = 0 := by
        rw [← hperm.length_eq, hnil]
        rfl
      have hfil := List.length_eq_zero.mp hlen0
      intro e he hcond
      have : e ∈ (entries.filter
          (fun s => decide (0 < s.market_cap) && decide (s.period ≤ year))) :=
        List.mem_filter.mpr ⟨he, by simp [hcond.1, hcond.2]⟩
      rw [hfil] at this
      simp at this
    · intro hall
      have hfil : entries.filter
          (fun s => decide (0 < s.market_cap) && decide (s.period ≤ year)) = [] := by
        rw [List.filter_eq_nil_iff]
        intro e he
        simp only [Bool.and_eq_true, decide_eq_true_eq, not_and]
        intro hmc hper
        exact hall e he ⟨hmc, hper⟩
      rw [hfil]
      simp
  · intro e hsome
    rw [latest_eligible] at hsome
    rcases hsort : (entries.filter
        (fun s => decide (0 < s.market_cap) && decide (s.period ≤ year))).mergeSort
        (fun a b => decide (b.period ≤ a.period)) with _ | ⟨e', tail⟩
    · rw [hsort] at hsome
      simp at hsome
    · rw [hsort] at hsome
      simp only [List.head?_cons, Option.some.injEq] at hsome
      subst e'
      have hmemsort : e ∈ (entries.filter
          (fun s => decide (0 < s.market_cap) && decide (s.period ≤ year))).mergeSort
          (fun a b => decide (b.period ≤ a.period)) := by
        rw [hsort]
        exact List.mem_cons_self _ _
      have hmemfil := List.mem_mergeSort.mp hmemsort
      have hme := List.mem_filter.mp hmemfil
      have hconds := hme.2
      simp only [Bool.and_eq_true, decide_eq_true_eq] at hconds
      refine ⟨hme.1, hconds.1, hconds.2, ?_⟩
      intro f hf hfmc hfper
      have hfsort : f ∈ (entries.filter
          (fun s => decide (0 < s.market_cap) && decide (s.period ≤ year))).mergeSort
          (fun a b => decide (b.period ≤ a.period)) :=
        List.mem_mergeSort.mpr (List.mem_filter.mpr ⟨hf, by simp [hfmc, hfper]⟩)
      have hpw := List.sorted_mergeSort htrans htotal
        (entries.filter (fun s => decide (0 < s.market_cap) && decide (s.period ≤ year)))
      rw [hsort] at hpw hfsort
      rcases List.mem_cons.mp hfsort with rfl | hftail
      · exact le_refl _
      · have := (List.pairwise_cons.mp hpw).1 f hftail
        simpa using this
  · intro pre post sym hnone
    unfold scores_for_year
    rw [List.filterMap_append, List.filterMap_cons]
    simp only [hnone]
